import Mathlib

set_option maxHeartbeats 1000000

/- Shallow embedding of the bulk/multi-file AI edit orchestrator of the
   Githubaiapp repository: content normalization (geminiService.ts,
   editCodeWithAI), streaming aggregation (generateCodeEditStream and the
   per-job chunk handlers), blueprint planning (getExpansionBlueprint and
   handleExpansionSubmit), the bulk-edit per-file pipeline
   (handleBulkEditSubmit) and the expansion job scheduler
   (processJob together with the bounded worker pool in App.tsx).
   File contents and streamed fragments are modelled as lists of
   characters; network and model outcomes are explicit environment data. -/

/-- Word character as matched by the JavaScript regex class backslash-w:
ASCII letters, digits and the underscore. -/
def isWordChar (c : Char) : Bool :=
  (97 ≤ c.toNat && c.toNat ≤ 122) || (65 ≤ c.toNat && c.toNat ≤ 90) ||
    (48 ≤ c.toNat && c.toNat ≤ 57) || c == '_'

/-- ASCII whitespace removed by JavaScript String.prototype.trim:
space, tab, newline, carriage return, vertical tab, form feed. -/
def isJsWhite (c : Char) : Bool :=
  c == ' ' || c == '\t' || c == '\n' || c == '\r' || c.toNat == 11 || c.toNat == 12

/-- The backtick character, written via its code point. -/
def backtick : Char := Char.ofNat 96

/-- JavaScript String.prototype.trim on a list of characters. -/
def trimChars (s : List Char) : List Char :=
  ((s.dropWhile isJsWhite).reverse.dropWhile isJsWhite).reverse

/-- First replace of cleanedCode in editCodeWithAI: the regex matching a
leading triple backtick followed by an optional word-character language tag
that ends at a newline; the match is removed. -/
def stripLeadFence (s : List Char) : List Char :=
  match s with
  | c1 :: c2 :: c3 :: rest =>
    if c1 == backtick && c2 == backtick && c3 == backtick then
      let tag := rest.takeWhile isWordChar
      match rest.drop tag.length with
      | '\n' :: tail => tail
      | _ => rest
    else s
  | _ => s

/-- Second replace of cleanedCode in editCodeWithAI: the regex matching an
optional newline followed by a triple backtick at the end of the string;
the match is removed. -/
def stripTrailFence (s : List Char) : List Char :=
  match s.reverse with
  | c1 :: c2 :: c3 :: rest =>
    if c1 == backtick && c2 == backtick && c3 == backtick then
      match rest with
      | '\n' :: r2 => r2.reverse
      | _ => rest.reverse
    else s
  | _ => s

/-- cleanedCode from editCodeWithAI (geminiService.ts): strip a leading
code fence, then a trailing code fence, then trim surrounding whitespace. -/
def cleanedCode (s : List Char) : List Char :=
  trimChars (stripTrailFence (stripLeadFence s))

/-- A candidate string wrapped in markdown code fences: triple backtick,
language tag, newline, body, newline, triple backtick. -/
def fenceWrap (lang body : List Char) : List Char :=
  backtick :: backtick :: backtick ::
    (lang ++ '\n' :: (body ++ '\n' :: backtick :: backtick :: backtick :: []))

/-- generateCodeEditStream (geminiService.ts): a raw stream chunk is
delivered to onChunk only when its text is nonempty, because of the
truthiness guard on chunk.text. -/
def deliveredFragments (raw : List (List Char)) : List (List Char) :=
  raw.filter (fun t => !t.isEmpty)

/-- The chunk handlers in processJob and handleBulkEditSubmit: newContent
starts empty and each delivered fragment is appended to it. -/
def accumulateStream (frags : List (List Char)) : List Char :=
  frags.foldl (fun acc c => acc ++ c) []

/-- A planned new file from the architect response (types.ts). -/
structure ExpansionBlueprintItem where
  filePath : String
  description : String
deriving DecidableEq, Repr

/-- The value produced from the blueprint model response text:
JSON parsing either throws, or yields an object whose files field may be
absent or null (modelled by none). -/
inductive ParsedBlueprintJson
  | parseError (msg : String)
  | obj (files : Option (List ExpansionBlueprintItem))
deriving DecidableEq

/-- getExpansionBlueprint (geminiService.ts): on a successful request the
parsed files list (or an empty list when the field is missing) is
returned; any error thrown by the request or by JSON parsing is rewrapped
as an AI Architect failure. -/
def getExpansionBlueprint (r : Except String ParsedBlueprintJson) :
    Except String (List ExpansionBlueprintItem) :=
  match r with
  | .error m => .error ("AI Architect failed: " ++ m)
  | .ok (.parseError m) => .error ("AI Architect failed: " ++ m)
  | .ok (.obj none) => .ok []
  | .ok (.obj (some l)) => .ok l

/-- Result of one seed promise inside the Promise.all of
handleExpansionSubmit: either one of the awaited calls threw (getFileContent
or getExpansionBlueprint), or a blueprint item list was returned, possibly
empty. -/
inductive SeedPlanResult
  | thrown (msg : String)
  | planned (items : List ExpansionBlueprintItem)
deriving DecidableEq

/-- The blueprint jobs a seed contributes to initialJobs. -/
def SeedPlanResult.itemsOf : SeedPlanResult → List ExpansionBlueprintItem
  | .thrown _ => []
  | .planned l => l

/-- Whether the seed promise rejected. -/
def SeedPlanResult.isThrown : SeedPlanResult → Bool
  | .thrown _ => true
  | .planned _ => false

/-- Outcome of the planning phase of handleExpansionSubmit before any job
is scheduled. -/
inductive PlanningOutcome
  | runAborted (msg : String)
  | planEmpty
  | proceed (jobs : List ExpansionBlueprintItem)
deriving DecidableEq

/-- The message of the first rejected seed promise, if any: Promise.all
rejects as soon as any of its promises rejects. -/
def firstThrown : List SeedPlanResult → Option String
  | [] => none
  | .thrown m :: _ => some m
  | .planned _ :: rest => firstThrown rest

/-- The planning phase of handleExpansionSubmit (App.tsx): Promise.all over
the per-seed blueprint promises. A rejection of any seed promise rejects
the whole Promise.all and is caught by the outer catch, which raises the
Expansion Failed alert and ends the run. Otherwise the per-seed item lists
are flattened into initialJobs; when that list is empty the AI-architect
failure alert is raised and the run returns, else the jobs proceed to the
scheduler. -/
def expansionPlanning (seeds : List SeedPlanResult) : PlanningOutcome :=
  match firstThrown seeds with
  | some m => .runAborted ("Expansion Failed: " ++ m)
  | none =>
    let jobs := seeds.flatMap SeedPlanResult.itemsOf
    if jobs.isEmpty then .planEmpty else .proceed jobs

/-- Result of getFileContent: path, decoded content and revision marker. -/
structure FileContentR where
  path : String
  content : List Char
  sha : String
deriving DecidableEq

/-- Environment for one file of the bulk-edit loop: the outcome of its
fetch, of its AI stream (raw chunks or a thrown error) and of its commit,
were a commit attempted. -/
structure BulkFileEnv where
  fetch : Except String FileContentR
  ai : Except String (List (List Char))
  commit : Except String Unit

/-- Calls issued against the source-control gateway, in order. -/
inductive GatewayCall
  | getBranchInfo (branch : String)
  | createBranch (name fromSha : String)
  | getFile (path branch : String)
  | commitFile (branch path : String) (content : List Char) (message : String)
      (sha : Option String)
deriving DecidableEq

/-- Per-file outcome of the bulk-edit loop body. -/
inductive BulkFileOutcome
  | fetchFailed (msg : String)
  | aiFailed (msg : String)
  | skipped
  | committed
  | commitFailed (msg : String)
deriving DecidableEq

/-- One iteration of the per-file loop of handleBulkEditSubmit (App.tsx):
fetch the file from the default branch, stream the AI edit into newContent,
skip when the trimmed candidate equals the trimmed original, otherwise
commit the accumulated content to the new branch with the sha captured by
the fetch; any thrown error is caught per file. Returns the gateway calls
issued for this file and the outcome. -/
def processBulkFile (newBranchName defaultBranch : String) (p : String)
    (e : BulkFileEnv) : List GatewayCall × BulkFileOutcome :=
  match e.fetch with
  | .error m => ([.getFile p defaultBranch], .fetchFailed m)
  | .ok fc =>
    match e.ai with
    | .error m => ([.getFile p defaultBranch], .aiFailed m)
    | .ok raw =>
      let newContent := accumulateStream (deliveredFragments raw)
      if trimChars newContent = trimChars fc.content then
        ([.getFile p defaultBranch], .skipped)
      else
        let c := GatewayCall.commitFile newBranchName fc.path newContent
          ("[AI] Bulk edit: " ++ p) (some fc.sha)
        match e.commit with
        | .ok _ => ([.getFile p defaultBranch, c], .committed)
        | .error m => ([.getFile p defaultBranch, c], .commitFailed m)

/-- Environment for the branch setup of handleBulkEditSubmit: the outcome
of getBranch on the default branch (yielding the base commit sha) and of
createBranch. -/
structure BulkSetupEnv where
  branchInfo : Except String String
  createBranch : Except String Unit

/-- The gateway-call trace of handleBulkEditSubmit (App.tsx): fetch the
base branch info, create the new branch once, then run the per-file loop;
a failure of either setup call aborts before any file is processed. -/
def bulkEditTrace (newBranchName defaultBranch : String) (setup : BulkSetupEnv)
    (files : List (String × BulkFileEnv)) : List GatewayCall :=
  match setup.branchInfo with
  | .error _ => [.getBranchInfo defaultBranch]
  | .ok baseSha =>
    match setup.createBranch with
    | .error _ => [.getBranchInfo defaultBranch, .createBranch newBranchName baseSha]
    | .ok _ =>
      GatewayCall.getBranchInfo defaultBranch ::
        GatewayCall.createBranch newBranchName baseSha ::
        files.flatMap (fun pe => (processBulkFile newBranchName defaultBranch pe.1 pe.2).1)

/-- Status lifecycle of a job (types.ts / ExpansionJob.status and the
status literals written by App.tsx). -/
inductive JobStatus
  | queued
  | generating
  | committing
  | success
  | skipped
  | failed (msg : String)
deriving DecidableEq, Repr

/-- Statuses that the spec calls terminal. -/
def JobStatus.isTerminal : JobStatus → Bool
  | .success => true
  | .skipped => true
  | .failed _ => true
  | _ => false

/-- Environment of one expansion job inside processJob (App.tsx): whether
the repo data lookup succeeds, the outcome of the seed getFileContent, the
raw chunks of the generation stream, and the outcome of createOrUpdateFile
were it reached. The token-null early return after the generating write is
unreachable (handleExpansionSubmit returns before planning when token is
null and the captured binding never changes during the run), and the
typeof guard on repoFullName cannot fire on a string-typed job id; both
dead branches are therefore not modelled, while the reachable repo-data
check is the repoFound flag. -/
structure JobEnv where
  repoFound : Bool
  fetchOk : Bool
  fetchErr : String
  chunks : List (List Char)
  commitOk : Bool
  commitErr : String
deriving DecidableEq

/-- The terminal status processJob gives a job, as a function of that
job's own environment: repo lookup failure, seed fetch failure, the
empty-content guard, commit failure, else success. -/
def jobFinal (e : JobEnv) : JobStatus :=
  if !e.repoFound then .failed "Repo data not found"
  else if !e.fetchOk then .failed e.fetchErr
  else if (trimChars (accumulateStream (deliveredFragments e.chunks))).isEmpty then
    .failed "AI returned empty content."
  else if e.commitOk then .success
  else .failed e.commitErr

/-- The status writes processJob performs after the initial write of
generating: the committing write happens exactly when the repo lookup, the
seed fetch and the empty-content guard all pass, and the final write is
the terminal status. -/
def traceRest (e : JobEnv) : List JobStatus :=
  if e.repoFound && e.fetchOk &&
      !(trimChars (accumulateStream (deliveredFragments e.chunks))).isEmpty then
    [.committing, jobFinal e]
  else
    [jobFinal e]

/-- CONCURRENCY_LIMIT in handleExpansionSubmit. -/
def CONCURRENCY_LIMIT : Nat := 5

/-- State of the expansion run: the shared task queue, the five workers
(each idle or busy on a job with its remaining status writes), and the
status map published through setExpansionJobs. -/
structure SchedState (n : Nat) where
  queue : List (Fin n)
  workers : Fin CONCURRENCY_LIMIT → Option (Fin n × List JobStatus)
  status : Fin n → JobStatus

/-- Interleaving semantics of the worker pool of handleExpansionSubmit:
an idle worker shifts the next job off the shared queue and synchronously
writes generating (no suspension point between the shift and the first
status write); a busy worker performs its job's next status write at a
suspension point; the last write is the terminal status and frees the
worker. -/
inductive Step {n : Nat} (env : Fin n → JobEnv) :
    SchedState n → SchedState n → Prop
  | dequeue (s : SchedState n) (w : Fin CONCURRENCY_LIMIT) (j : Fin n)
      (rest : List (Fin n)) (hw : s.workers w = none) (hq : s.queue = j :: rest) :
      Step env s ⟨rest,
        Function.update s.workers w (some (j, traceRest (env j))),
        Function.update s.status j .generating⟩
  | work (s : SchedState n) (w : Fin CONCURRENCY_LIMIT) (j : Fin n)
      (k k2 : JobStatus) (ks : List JobStatus)
      (hw : s.workers w = some (j, k :: k2 :: ks)) :
      Step env s ⟨s.queue,
        Function.update s.workers w (some (j, k2 :: ks)),
        Function.update s.status j k⟩
  | finish (s : SchedState n) (w : Fin CONCURRENCY_LIMIT) (j : Fin n)
      (k : JobStatus) (hw : s.workers w = some (j, [k])) :
      Step env s ⟨s.queue,
        Function.update s.workers w none,
        Function.update s.status j k⟩

/-- Initial state: all jobs queued in order, all workers idle. -/
def initState (n : Nat) : SchedState n :=
  ⟨List.finRange n, fun _ => none, fun _ => .queued⟩

/-- States an expansion run can be in. -/
def Reaches {n : Nat} (env : Fin n → JobEnv) (s : SchedState n) : Prop :=
  Relation.ReflTransGen (Step env) (initState n) s

/-- The scheduler has terminated: the queue is drained and every worker
loop has exited. -/
def Stuck {n : Nat} (s : SchedState n) : Prop :=
  s.queue = [] ∧ ∀ w, s.workers w = none

/-- Number of pending status writes held by a worker. -/
def workerLoad {n : Nat} : Option (Fin n × List JobStatus) → Nat
  | none => 0
  | some (_, r) => r.length

/-- Remaining work in the run: queued jobs count their full trace plus the
dequeue itself, busy workers their pending writes. -/
def measureS {n : Nat} (env : Fin n → JobEnv) (s : SchedState n) : Nat :=
  (s.queue.map (fun j => (traceRest (env j)).length + 1)).sum +
    ∑ w : Fin CONCURRENCY_LIMIT, workerLoad (s.workers w)

/-- Jobs currently in a non-terminal, non-queued state. -/
def inflight {n : Nat} (s : SchedState n) : Finset (Fin n) :=
  Finset.univ.filter
    (fun j => s.status j = .generating ∨ s.status j = .committing)

/-- The isComplete flag passed to ExpansionProgress (App.tsx): no job has
status queued, generating or committing. -/
def isComplete {n : Nat} (s : SchedState n) : Bool :=
  !((List.finRange n).any (fun j =>
    s.status j == .queued || s.status j == .generating || s.status j == .committing))

/-- Run invariant: the queue has no duplicates, distinct busy workers hold
distinct jobs, and every job is in exactly one of three situations:
still queued with status queued; held by a worker whose pending writes are
either the full remaining trace (status generating) or just the terminal
write (status committing); or settled with its environment-determined
terminal status and held by nobody. -/
def SchedInv {n : Nat} (env : Fin n → JobEnv) (s : SchedState n) : Prop :=
  s.queue.Nodup ∧
  (∀ w w2 j r r2, s.workers w = some (j, r) → s.workers w2 = some (j, r2) → w = w2) ∧
  (∀ j : Fin n,
    (j ∈ s.queue ∧ s.status j = .queued ∧ ∀ w r, s.workers w ≠ some (j, r)) ∨
    (j ∉ s.queue ∧ ∃ w,
      (s.workers w = some (j, traceRest (env j)) ∧ s.status j = .generating) ∨
      (s.workers w = some (j, [jobFinal (env j)]) ∧
        traceRest (env j) = [.committing, jobFinal (env j)] ∧
        s.status j = .committing)) ∨
    (j ∉ s.queue ∧ (∀ w r, s.workers w ≠ some (j, r)) ∧ s.status j = jobFinal (env j)))

/-- A job environment on which every external call succeeds and the stream
is nonempty. -/
def envOkJob : JobEnv :=
  { repoFound := true, fetchOk := true, fetchErr := "", chunks := [['x']],
    commitOk := true, commitErr := "" }

/-- A job environment whose seed fetch throws. -/
def envFailJob : JobEnv :=
  { repoFound := true, fetchOk := false, fetchErr := "Not Found", chunks := [],
    commitOk := true, commitErr := "" }

/-- Two-job run in which both jobs succeed. -/
def envA : Fin 2 → JobEnv := fun _ => envOkJob

/-- Two-job run in which the second job's fetch throws. -/
def envB : Fin 2 → JobEnv := fun j => if j = 0 then envOkJob else envFailJob

/-- Intermediate states of the concrete run under envA. -/
def sA1 : SchedState 2 :=
  ⟨[1], ![some (0, [JobStatus.committing, .success]), none, none, none, none],
    ![JobStatus.generating, .queued]⟩

def sA2 : SchedState 2 :=
  ⟨[], ![some (0, [JobStatus.committing, .success]),
        some (1, [JobStatus.committing, .success]), none, none, none],
    ![JobStatus.generating, .generating]⟩

def sA3 : SchedState 2 :=
  ⟨[], ![some (0, [JobStatus.success]),
        some (1, [JobStatus.committing, .success]), none, none, none],
    ![JobStatus.committing, .generating]⟩

def sA4 : SchedState 2 :=
  ⟨[], ![none, some (1, [JobStatus.committing, .success]), none, none, none],
    ![JobStatus.success, .generating]⟩

def sA5 : SchedState 2 :=
  ⟨[], ![none, some (1, [JobStatus.success]), none, none, none],
    ![JobStatus.success, .committing]⟩

/-- Final state of the concrete run under envA. -/
def sA6 : SchedState 2 :=
  ⟨[], ![none, none, none, none, none], ![JobStatus.success, .success]⟩

/-- Intermediate states of the concrete run under envB. -/
def sB2 : SchedState 2 :=
  ⟨[], ![some (0, [JobStatus.committing, .success]),
        some (1, [JobStatus.failed "Not Found"]), none, none, none],
    ![JobStatus.generating, .generating]⟩

def sB3 : SchedState 2 :=
  ⟨[], ![some (0, [JobStatus.success]),
        some (1, [JobStatus.failed "Not Found"]), none, none, none],
    ![JobStatus.committing, .generating]⟩

def sB4 : SchedState 2 :=
  ⟨[], ![none, some (1, [JobStatus.failed "Not Found"]), none, none, none],
    ![JobStatus.success, .generating]⟩

/-- Final state of the concrete run under envB. -/
def sB5 : SchedState 2 :=
  ⟨[], ![none, none, none, none, none], ![JobStatus.success, .failed "Not Found"]⟩

/- ===================== Theorems ===================== -/

lemma takeWhile_word_append (lang tail : List Char)
    (h : ∀ c ∈ lang, isWordChar c = true) :
    (lang ++ '\n' :: tail).takeWhile isWordChar = lang := by
  induction lang with
  | nil => simp [List.takeWhile_cons]; decide
  | cons c l ih =>
    have hc : isWordChar c = true := h c (List.mem_cons_self c l)
    simp only [List.cons_append, List.takeWhile_cons, hc, if_true]
    rw [ih (fun c hc2 => h c (List.mem_cons_of_mem _ hc2))]

lemma stripLeadFence_fence (lang body : List Char)
    (h : ∀ c ∈ lang, isWordChar c = true) :
    stripLeadFence (fenceWrap lang body) =
      body ++ '\n' :: backtick :: backtick :: backtick :: [] := by
  unfold fenceWrap stripLeadFence
  simp only [beq_self_eq_true, Bool.and_self, if_true]
  rw [takeWhile_word_append _ _ h]
  rw [show lang ++ '\n' :: (body ++ '\n' :: backtick :: backtick :: backtick :: [])
        = lang ++ ('\n' :: (body ++ '\n' :: backtick :: backtick :: backtick :: []))
      from rfl]
  rw [List.drop_left]
  rfl

lemma stripTrailFence_close (body : List Char) :
    stripTrailFence (body ++ '\n' :: backtick :: backtick :: backtick :: []) = body := by
  unfold stripTrailFence
  rw [show (body ++ '\n' :: backtick :: backtick :: backtick :: []).reverse
        = backtick :: backtick :: backtick :: '\n' :: body.reverse from by simp]
  simp

/-- C6: cleanedCode in editCodeWithAI strips a leading code fence with an
optional word-character language tag, strips a trailing code fence, and
trims surrounding whitespace; in particular the fenced python example
normalizes to the bare statement. -/
theorem cleanedCode_strips_fences :
    (∀ lang body : List Char, (∀ c ∈ lang, isWordChar c = true) →
      cleanedCode (fenceWrap lang body) = trimChars body) ∧
    cleanedCode ("```python\nprint(1)\n```".toList) = "print(1)".toList := by
  constructor
  · intro lang body h
    unfold cleanedCode
    rw [stripLeadFence_fence lang body h, stripTrailFence_close]
  · decide

/-- C6 witness: the general fence-stripping theorem applied to the python
example of the spec. -/
theorem cleanedCode_strips_fences_witness :
    cleanedCode (fenceWrap "python".toList "print(1)".toList) =
      trimChars "print(1)".toList :=
  cleanedCode_strips_fences.1 "python".toList "print(1)".toList (by decide)

lemma foldl_append_acc (l : List (List Char)) (acc : List Char) :
    l.foldl (fun a c => a ++ c) acc = acc ++ l.flatten := by
  induction l generalizing acc with
  | nil => simp
  | cons a t ih => simp [ih]

lemma accumulateStream_eq_flatten (l : List (List Char)) :
    accumulateStream l = l.flatten := by
  simp [accumulateStream, foldl_append_acc]

lemma flatten_delivered (raw : List (List Char)) :
    (deliveredFragments raw).flatten = raw.flatten := by
  induction raw with
  | nil => rfl
  | cons a t ih =>
    by_cases ha : a.isEmpty
    · have : a = [] := by cases a <;> simp_all [List.isEmpty]
      simp [deliveredFragments, List.filter_cons, ha, this] at ih ⊢
      simpa [deliveredFragments] using ih
    · simp [deliveredFragments, List.filter_cons, ha] at ih ⊢
      simpa [deliveredFragments] using ih

/-- C9: the accumulated content at stream end is the concatenation, in
delivery order, of the delivered fragments, and it equals the
concatenation of all raw stream chunks (no fragment is lost); moreover the
accumulated content after any number of chunks is a prefix of the final
content, so fragments are applied in delivery order. -/
theorem stream_accumulation_faithful :
    ∀ raw : List (List Char),
      accumulateStream (deliveredFragments raw) = (deliveredFragments raw).flatten ∧
      accumulateStream (deliveredFragments raw) = raw.flatten ∧
      ∀ k, ∃ t, accumulateStream (deliveredFragments (raw.take k)) ++ t =
        accumulateStream (deliveredFragments raw) := by
  intro raw
  refine ⟨accumulateStream_eq_flatten _, ?_, ?_⟩
  · rw [accumulateStream_eq_flatten, flatten_delivered]
  · intro k
    refine ⟨(deliveredFragments (raw.drop k)).flatten, ?_⟩
    rw [accumulateStream_eq_flatten, accumulateStream_eq_flatten]
    rw [show deliveredFragments raw
          = deliveredFragments (raw.take k ++ raw.drop k) from by
        rw [List.take_append_drop]]
    unfold deliveredFragments
    rw [List.filter_append, List.flatten_append]

/-- C10: getExpansionBlueprint returns an empty list when the parsed JSON
lacks a files field, and returns the files list itself (also when empty)
when the field is present; it returns an AI Architect failure exactly for
a thrown request or a JSON parse error, and a parsed object never yields
an error. -/
theorem getExpansionBlueprint_empty_vs_throw :
    getExpansionBlueprint (.ok (.obj none)) = .ok [] ∧
    getExpansionBlueprint (.ok (.obj (some []))) = .ok [] ∧
    (∀ m, getExpansionBlueprint (.error m) =
      .error ("AI Architect failed: " ++ m)) ∧
    (∀ m, getExpansionBlueprint (.ok (.parseError m)) =
      .error ("AI Architect failed: " ++ m)) ∧
    (∀ files, getExpansionBlueprint (.ok (.obj files)) = .ok (files.getD [])) := by
  refine ⟨rfl, rfl, fun m => rfl, fun m => rfl, fun files => ?_⟩
  cases files <;> rfl

lemma firstThrown_eq_none (seeds : List SeedPlanResult)
    (h : ∀ s ∈ seeds, s.isThrown = false) : firstThrown seeds = none := by
  induction seeds with
  | nil => rfl
  | cons a t ih =>
    cases a with
    | thrown m => exact absurd (h _ (List.mem_cons_self _ _)) (by simp [SeedPlanResult.isThrown])
    | planned l =>
      exact ih (fun s hs => h s (List.mem_cons_of_mem _ hs))

lemma firstThrown_isSome (seeds : List SeedPlanResult) (s : SeedPlanResult)
    (hs : s ∈ seeds) (ht : s.isThrown = true) : ∃ m, firstThrown seeds = some m := by
  induction seeds with
  | nil => cases hs
  | cons a t ih =>
    cases a with
    | thrown m => exact ⟨m, rfl⟩
    | planned l =>
      rcases List.mem_cons.mp hs with h1 | h1
      · rw [h1] at ht; cases ht
      · exact ih h1

/-- C3 counterexample: with three seeds of which one plans successfully
and two throw, the planning phase of handleExpansionSubmit aborts the
whole run through the rejected Promise.all, instead of proceeding with
the successful seed's blueprint jobs. -/
theorem expansionPlanning_partial_failure_aborts_run :
    expansionPlanning
        [SeedPlanResult.planned [⟨"a.ts", "helper"⟩],
         .thrown "AI Architect failed: bad JSON",
         .thrown "AI Architect failed: bad JSON"]
      = .runAborted "Expansion Failed: AI Architect failed: bad JSON" ∧
    expansionPlanning
        [SeedPlanResult.planned [⟨"a.ts", "helper"⟩],
         .thrown "AI Architect failed: bad JSON",
         .thrown "AI Architect failed: bad JSON"]
      ≠ .proceed [⟨"a.ts", "helper"⟩] := by
  constructor
  · rfl
  · decide

/-- C3 amended: a seed whose blueprint call returns a parsed but empty
plan fails only that seed (the run proceeds with the other seeds' jobs,
and the architect-failure alert aborts the run exactly when every seed
yields an empty plan), while a seed whose blueprint promise throws
rejects the Promise.all and aborts the entire run regardless of the other
seeds. -/
theorem expansionPlanning_isolation_amended :
    (∀ seeds : List SeedPlanResult, (∀ s ∈ seeds, s.isThrown = false) →
      (seeds.flatMap SeedPlanResult.itemsOf = [] →
        expansionPlanning seeds = .planEmpty) ∧
      (seeds.flatMap SeedPlanResult.itemsOf ≠ [] →
        expansionPlanning seeds = .proceed (seeds.flatMap SeedPlanResult.itemsOf))) ∧
    (∀ seeds s, s ∈ seeds → s.isThrown = true →
      ∃ m, expansionPlanning seeds = .runAborted ("Expansion Failed: " ++ m)) := by
  constructor
  · intro seeds h
    unfold expansionPlanning
    rw [firstThrown_eq_none seeds h]
    constructor
    · intro he; simp [he]
    · intro he; simp [List.isEmpty_iff, he]
  · intro seeds s hs ht
    obtain ⟨m, hm⟩ := firstThrown_isSome seeds s hs ht
    exact ⟨m, by unfold expansionPlanning; rw [hm]⟩

/-- C3 witness: two seeds without thrown failures, one of which plans an
empty list, proceed with exactly the nonempty seed's jobs. -/
theorem expansionPlanning_isolation_amended_witness :
    expansionPlanning [SeedPlanResult.planned [⟨"a.ts", "helper"⟩], .planned []]
      = .proceed [⟨"a.ts", "helper"⟩] :=
  (expansionPlanning_isolation_amended.1
    [SeedPlanResult.planned [⟨"a.ts", "helper"⟩], .planned []]
    (by decide)).2 (by decide)

/-- C5 counterexample: a candidate whose normalized content (fences
stripped, then trimmed) equals the trimmed original is nevertheless
committed by the bulk-edit loop, because the loop compares the raw
accumulated stream against the original without normalizing. -/
theorem bulkEdit_normalized_equal_still_commits :
    cleanedCode ("```python\nprint(1)\n```".toList) =
      trimChars ("print(1)".toList) ∧
    (processBulkFile "ai-bulk" "main" "a.py"
        ⟨.ok ⟨"a.py", "print(1)".toList, "s1"⟩,
         .ok ["```python\nprint(1)\n```".toList], .ok ()⟩).2 ≠ .skipped ∧
    (processBulkFile "ai-bulk" "main" "a.py"
        ⟨.ok ⟨"a.py", "print(1)".toList, "s1"⟩,
         .ok ["```python\nprint(1)\n```".toList], .ok ()⟩).2 = .committed ∧
    GatewayCall.commitFile "ai-bulk" "a.py" ("```python\nprint(1)\n```".toList)
        "[AI] Bulk edit: a.py" (some "s1")
      ∈ (processBulkFile "ai-bulk" "main" "a.py"
        ⟨.ok ⟨"a.py", "print(1)".toList, "s1"⟩,
         .ok ["```python\nprint(1)\n```".toList], .ok ()⟩).1 := by
  refine ⟨by decide, by decide, by decide, by decide⟩

/-- C5 amended: in the bulk-edit loop the only normalization applied to
the candidate is trimming; whenever the trimmed accumulated candidate
equals the trimmed original, the job is skipped and no commit call is
issued for that file. -/
theorem bulkEdit_skip_on_equal_trim (nb db p : String) (e : BulkFileEnv)
    (fc : FileContentR) (raw : List (List Char))
    (hf : e.fetch = .ok fc) (ha : e.ai = .ok raw)
    (heq : trimChars (accumulateStream (deliveredFragments raw)) =
      trimChars fc.content) :
    processBulkFile nb db p e = ([.getFile p db], .skipped) ∧
    ∀ b pth cont m sh,
      GatewayCall.commitFile b pth cont m sh ∉ (processBulkFile nb db p e).1 := by
  have h1 : processBulkFile nb db p e = ([.getFile p db], .skipped) := by
    unfold processBulkFile
    rw [hf, ha]
    simp [heq]
  refine ⟨h1, ?_⟩
  intro b pth cont m sh hmem
  rw [h1] at hmem
  simp at hmem

/-- C5 witness: a stream echoing the original content is skipped with a
single fetch call and no commit. -/
theorem bulkEdit_skip_on_equal_trim_witness :
    processBulkFile "ai-bulk" "main" "a.ts"
        ⟨.ok ⟨"a.ts", ['x'], "s1"⟩, .ok [['x']], .ok ()⟩
      = ([.getFile "a.ts" "main"], .skipped) :=
  (bulkEdit_skip_on_equal_trim "ai-bulk" "main" "a.ts"
    ⟨.ok ⟨"a.ts", ['x'], "s1"⟩, .ok [['x']], .ok ()⟩
    ⟨"a.ts", ['x'], "s1"⟩ [['x']] rfl rfl (by decide)).1

/-- C4: on a whitespace-only stream an expansion job fails with the
empty-content error, as claimed; but a bulk-edit job whose stream yields
no fragments on a nonempty file is not failed: the loop commits the blank
content to the new branch. -/
theorem empty_stream_outcomes :
    jobFinal
      { repoFound := true, fetchOk := true, fetchErr := "",
        chunks := [" ".toList, "\n".toList], commitOk := true, commitErr := "" }
      = .failed "AI returned empty content." ∧
    (processBulkFile "ai-bulk" "main" "a.ts"
        ⟨.ok ⟨"a.ts", ['x'], "s1"⟩, .ok [], .ok ()⟩).2 = .committed ∧
    (processBulkFile "ai-bulk" "main" "a.ts"
        ⟨.ok ⟨"a.ts", ['x'], "s1"⟩, .ok [], .ok ()⟩).2 ≠ .fetchFailed "AI returned empty content." ∧
    GatewayCall.commitFile "ai-bulk" "a.ts" [] "[AI] Bulk edit: a.ts" (some "s1")
      ∈ (processBulkFile "ai-bulk" "main" "a.ts"
        ⟨.ok ⟨"a.ts", ['x'], "s1"⟩, .ok [], .ok ()⟩).1 := by
  refine ⟨by decide, by decide, by decide, by decide⟩

lemma processBulkFile_calls (nb db p : String) (e : BulkFileEnv)
    (c : GatewayCall) (hc : c ∈ (processBulkFile nb db p e).1) :
    c = .getFile p db ∨
    ∃ fc, e.fetch = .ok fc ∧ ∃ cont m,
      c = .commitFile nb fc.path cont m (some fc.sha) := by
  unfold processBulkFile at hc
  cases hf : e.fetch with
  | error m => rw [hf] at hc; simp at hc; exact .inl hc
  | ok fc =>
    rw [hf] at hc
    cases ha : e.ai with
    | error m => rw [ha] at hc; simp at hc; exact .inl hc
    | ok raw =>
      rw [ha] at hc
      by_cases heq : trimChars (accumulateStream (deliveredFragments raw)) =
          trimChars fc.content
      · simp [heq] at hc; exact .inl hc
      · simp only [if_neg heq] at hc
        cases hcm : e.commit with
        | ok u => rw [hcm] at hc; simp at hc
                  rcases hc with h | h
                  · exact .inl h
                  · exact .inr ⟨fc, rfl, _, _, h⟩
        | error m => rw [hcm] at hc; simp at hc
                     rcases hc with h | h
                     · exact .inl h
                     · exact .inr ⟨fc, rfl, _, _, h⟩

/-- C7: when the branch setup succeeds, the bulk-edit run issues exactly
one createBranch call, placed before every per-file call; every commit in
the run targets the new branch and passes the path and revision marker
captured by that file's fetch. -/
theorem bulkEdit_single_branch_commits (nb db baseSha : String)
    (setup : BulkSetupEnv) (files : List (String × BulkFileEnv))
    (h1 : setup.branchInfo = .ok baseSha) (h2 : setup.createBranch = .ok ()) :
    bulkEditTrace nb db setup files =
      GatewayCall.getBranchInfo db :: GatewayCall.createBranch nb baseSha ::
        files.flatMap (fun pe => (processBulkFile nb db pe.1 pe.2).1) ∧
    (∀ c ∈ files.flatMap (fun pe => (processBulkFile nb db pe.1 pe.2).1),
      (∀ nm sh, c ≠ .createBranch nm sh) ∧
      (∀ b pth cont m sh, c = .commitFile b pth cont m sh →
        b = nb ∧ ∃ pe ∈ files, ∃ fc, pe.2.fetch = .ok fc ∧
          pth = fc.path ∧ sh = some fc.sha)) := by
  constructor
  · unfold bulkEditTrace
    rw [h1, h2]
  · intro c hc
    rw [List.mem_flatMap] at hc
    obtain ⟨pe, hpe, hcall⟩ := hc
    rcases processBulkFile_calls nb db pe.1 pe.2 c hcall with h | ⟨fc, hfc, cont, m, hcm⟩
    · constructor
      · intro nm sh; rw [h]; intro hne; cases hne
      · intro b pth cont m sh hcf; rw [h] at hcf; cases hcf
    · constructor
      · intro nm sh; rw [hcm]; intro hne; cases hne
      · intro b pth cont m sh hcf
        rw [hcm] at hcf
        injection hcf with e1 e2 e3 e4 e5
        subst e1; subst e2; subst e5
        exact ⟨rfl, pe, hpe, fc, hfc, rfl, rfl⟩

/-- C7 witness: a one-file run with successful setup produces the branch
info call, a single branch creation, the fetch and a commit to the new
branch with the fetched sha. -/
theorem bulkEdit_single_branch_commits_witness :
    bulkEditTrace "ai-bulk" "main" ⟨.ok "base", .ok ()⟩
        [("a.ts", ⟨.ok ⟨"a.ts", ['x'], "s1"⟩, .ok [['y']], .ok ()⟩)] =
      [.getBranchInfo "main", .createBranch "ai-bulk" "base",
       .getFile "a.ts" "main",
       .commitFile "ai-bulk" "a.ts" ['y'] "[AI] Bulk edit: a.ts" (some "s1")] :=
  (bulkEdit_single_branch_commits "ai-bulk" "main" "base" ⟨.ok "base", .ok ()⟩
    [("a.ts", ⟨.ok ⟨"a.ts", ['x'], "s1"⟩, .ok [['y']], .ok ()⟩)] rfl rfl).1

lemma jobFinal_shape (e : JobEnv) :
    jobFinal e = .success ∨ ∃ m, jobFinal e = .failed m := by
  unfold jobFinal
  split
  · exact .inr ⟨_, rfl⟩
  split
  · exact .inr ⟨_, rfl⟩
  split
  · exact .inr ⟨_, rfl⟩
  split
  · exact .inl rfl
  · exact .inr ⟨_, rfl⟩

lemma jobFinal_terminal (e : JobEnv) : (jobFinal e).isTerminal = true := by
  rcases jobFinal_shape e with h | ⟨m, h⟩ <;> rw [h] <;> rfl

lemma traceRest_cases (e : JobEnv) :
    traceRest e = [jobFinal e] ∨ traceRest e = [.committing, jobFinal e] := by
  unfold traceRest
  split
  · exact .inr rfl
  · exact .inl rfl

lemma SchedState.ext2 {n : Nat} {s t : SchedState n} (hq : s.queue = t.queue)
    (hw : ∀ w, s.workers w = t.workers w) (hs : ∀ j, s.status j = t.status j) :
    s = t := by
  cases s; cases t
  simp only [SchedState.mk.injEq]
  exact ⟨hq, funext hw, funext hs⟩

lemma step_congr {n : Nat} {env : Fin n → JobEnv} {s a b : SchedState n}
    (h : Step env s a) (e : a = b) : Step env s b := e ▸ h

lemma schedInv_init (n : Nat) (env : Fin n → JobEnv) :
    SchedInv env (initState n) := by
  refine ⟨List.nodup_finRange n, ?_, ?_⟩
  · intro w w2 j r r2 hw
    simp [initState] at hw
  · intro j
    left
    exact ⟨List.mem_finRange j, rfl, by intro w r; simp [initState]⟩

lemma update_eq_some {n : Nat}
    {f : Fin CONCURRENCY_LIMIT → Option (Fin n × List JobStatus)}
    {w w1 : Fin CONCURRENCY_LIMIT} {v : Option (Fin n × List JobStatus)}
    {j0 : Fin n} {r : List JobStatus}
    (h : Function.update f w v w1 = some (j0, r)) :
    (w1 = w ∧ v = some (j0, r)) ∨ (w1 ≠ w ∧ f w1 = some (j0, r)) := by
  by_cases e : w1 = w
  · subst e; rw [Function.update_same] at h; exact .inl ⟨rfl, h⟩
  · rw [Function.update_noteq e] at h; exact .inr ⟨e, h⟩

lemma schedInv_step {n : Nat} {env : Fin n → JobEnv} {s s2 : SchedState n}
    (hinv : SchedInv env s) (hst : Step env s s2) : SchedInv env s2 := by
  obtain ⟨hnd, hdist, hcase⟩ := hinv
  cases hst with
  | dequeue w j rest hw hq =>
    unfold SchedInv
    dsimp only
    have hjq : j ∈ s.queue := by rw [hq]; exact List.mem_cons_self _ _
    have hcase1 : s.status j = .queued ∧ ∀ w0 r, s.workers w0 ≠ some (j, r) := by
      rcases hcase j with ⟨-, h1, h2⟩ | ⟨hnq, -⟩ | ⟨hnq, -, -⟩
      · exact ⟨h1, h2⟩
      · exact absurd hjq hnq
      · exact absurd hjq hnq
    obtain ⟨hsj, hnwj⟩ := hcase1
    have hndr : (j :: rest).Nodup := hq ▸ hnd
    have hjrest : j ∉ rest := (List.nodup_cons.mp hndr).1
    refine ⟨(List.nodup_cons.mp hndr).2, ?_, ?_⟩
    · intro w1 w2 j0 r r2 h1 h2
      rcases update_eq_some h1 with ⟨e1, hv1⟩ | ⟨e1, hv1⟩ <;>
        rcases update_eq_some h2 with ⟨e2, hv2⟩ | ⟨e2, hv2⟩
      · rw [e1, e2]
      · injection hv1 with hv1p
        injection hv1p with hj0 hr
        rw [← hj0] at hv2
        exact absurd hv2 (hnwj w2 r2)
      · injection hv2 with hv2p
        injection hv2p with hj0 hr
        rw [← hj0] at hv1
        exact absurd hv1 (hnwj w1 r)
      · exact hdist w1 w2 j0 r r2 hv1 hv2
    · intro j0
      by_cases ej : j0 = j
      · subst ej
        refine .inr (.inl ⟨hjrest, w, .inl ⟨?_, ?_⟩⟩)
        · rw [Function.update_same]
        · rw [Function.update_same]
      · rcases hcase j0 with ⟨hin, hst0, hnw0⟩ | ⟨hnin, w0, hAB⟩ | ⟨hnin, hnw0, hst0⟩
        · have hin2 : j0 ∈ rest := by
            rw [hq] at hin
            rcases List.mem_cons.mp hin with h | h
            · exact absurd h ej
            · exact h
          refine .inl ⟨hin2, ?_, ?_⟩
          · rw [Function.update_noteq ej, hst0]
          · intro w1 r h1
            rcases update_eq_some h1 with ⟨e1, hv1⟩ | ⟨e1, hv1⟩
            · injection hv1 with hv1p
              injection hv1p with hj0 hr
              exact ej hj0.symm
            · exact hnw0 w1 r hv1
        · have hnin2 : j0 ∉ rest := fun hmem => hnin (by rw [hq]; exact List.mem_cons_of_mem _ hmem)
          refine .inr (.inl ⟨hnin2, w0, ?_⟩)
          have hw0ne : w0 ≠ w := by
            intro e
            rcases hAB with ⟨hw0, -⟩ | ⟨hw0, -, -⟩ <;> rw [e, hw] at hw0 <;> cases hw0
          rcases hAB with ⟨hw0, hg⟩ | ⟨hw0, htr, hc⟩
          · exact .inl ⟨by rw [Function.update_noteq hw0ne]; exact hw0,
              by rw [Function.update_noteq ej]; exact hg⟩
          · exact .inr ⟨by rw [Function.update_noteq hw0ne]; exact hw0, htr,
              by rw [Function.update_noteq ej]; exact hc⟩
        · have hnin2 : j0 ∉ rest := fun hmem => hnin (by rw [hq]; exact List.mem_cons_of_mem _ hmem)
          refine .inr (.inr ⟨hnin2, ?_, ?_⟩)
          · intro w1 r h1
            rcases update_eq_some h1 with ⟨e1, hv1⟩ | ⟨e1, hv1⟩
            · injection hv1 with hv1p
              injection hv1p with hj0 hr
              exact ej hj0.symm
            · exact hnw0 w1 r hv1
          · rw [Function.update_noteq ej]; exact hst0
  | work w j k k2 ks hw =>
    unfold SchedInv
    dsimp only
    rcases hcase j with ⟨-, -, hnwj⟩ | ⟨hnin, w0, hAB⟩ | ⟨-, hnwj, -⟩
    · exact absurd hw (hnwj w _)
    · rcases hAB with ⟨hw0, hg⟩ | ⟨hw0, htr, hc⟩
      · have hww : w = w0 := hdist w w0 j _ _ hw hw0
        rw [← hww] at hw0
        rw [hw] at hw0
        injection hw0 with hw0p
        injection hw0p with hj0 hr
        rcases traceRest_cases (env j) with h1 | h1
        · rw [h1] at hr
          injection hr with hk hr2
          cases hr2
        · rw [h1] at hr
          injection hr with hk hr2
          injection hr2 with hk2 hks
          subst hk; subst hk2; subst hks
          refine ⟨hnd, ?_, ?_⟩
          · intro w1 w2 j0 r r2 h1w h2w
            rcases update_eq_some h1w with ⟨e1, hv1⟩ | ⟨e1, hv1⟩ <;>
              rcases update_eq_some h2w with ⟨e2, hv2⟩ | ⟨e2, hv2⟩
            · rw [e1, e2]
            · injection hv1 with hv1p
              injection hv1p with hj0 hrr
              rw [← hj0] at hv2
              exact absurd (hdist w2 w j r2 _ hv2 hw) e2
            · injection hv2 with hv2p
              injection hv2p with hj0 hrr
              rw [← hj0] at hv1
              exact absurd (hdist w1 w j r _ hv1 hw) e1
            · exact hdist w1 w2 j0 r r2 hv1 hv2
          · intro j0
            by_cases ej : j0 = j
            · subst ej
              refine .inr (.inl ⟨hnin, w, .inr ⟨?_, h1, ?_⟩⟩)
              · rw [Function.update_same]
              · rw [Function.update_same]
            · rcases hcase j0 with ⟨hin, hst0, hnw0⟩ | ⟨hnin0, w1, hAB0⟩ | ⟨hnin0, hnw0, hst0⟩
              · refine .inl ⟨hin, by rw [Function.update_noteq ej]; exact hst0, ?_⟩
                intro w1 r h1w
                rcases update_eq_some h1w with ⟨e1, hv1⟩ | ⟨e1, hv1⟩
                · injection hv1 with hv1p
                  injection hv1p with hj0 hrr
                  exact ej hj0.symm
                · exact hnw0 w1 r hv1
              · have hw1ne : w1 ≠ w := by
                  intro e
                  rcases hAB0 with ⟨hw1, -⟩ | ⟨hw1, -, -⟩ <;> rw [e, hw] at hw1 <;>
                    · injection hw1 with hw1p
                      injection hw1p with hj1 hr1
                      exact ej hj1.symm
                refine .inr (.inl ⟨hnin0, w1, ?_⟩)
                rcases hAB0 with ⟨hw1, hg1⟩ | ⟨hw1, htr1, hc1⟩
                · exact .inl ⟨by rw [Function.update_noteq hw1ne]; exact hw1,
                    by rw [Function.update_noteq ej]; exact hg1⟩
                · exact .inr ⟨by rw [Function.update_noteq hw1ne]; exact hw1, htr1,
                    by rw [Function.update_noteq ej]; exact hc1⟩
              · refine .inr (.inr ⟨hnin0, ?_, by rw [Function.update_noteq ej]; exact hst0⟩)
                intro w1 r h1w
                rcases update_eq_some h1w with ⟨e1, hv1⟩ | ⟨e1, hv1⟩
                · injection hv1 with hv1p
                  injection hv1p with hj0 hrr
                  exact ej hj0.symm
                · exact hnw0 w1 r hv1
      · have hww : w = w0 := hdist w w0 j _ _ hw hw0
        rw [← hww] at hw0
        rw [hw] at hw0
        injection hw0 with hw0p
        injection hw0p with hj0 hr
        cases hr
    · exact absurd hw (hnwj w _)
  | finish w j k hw =>
    unfold SchedInv
    dsimp only
    rcases hcase j with ⟨-, -, hnwj⟩ | ⟨hnin, w0, hAB⟩ | ⟨-, hnwj, -⟩
    · exact absurd hw (hnwj w _)
    · have hkf : k = jobFinal (env j) := by
        rcases hAB with ⟨hw0, -⟩ | ⟨hw0, -, -⟩
        · have hww : w = w0 := hdist w w0 j _ _ hw hw0
          rw [← hww, hw] at hw0
          injection hw0 with hw0p
          injection hw0p with hj0 hr
          rcases traceRest_cases (env j) with h1 | h1
          · rw [h1] at hr
            injection hr with hk hr2
          · rw [h1] at hr
            injection hr with hk hr2
            cases hr2
        · have hww : w = w0 := hdist w w0 j _ _ hw hw0
          rw [← hww, hw] at hw0
          injection hw0 with hw0p
          injection hw0p with hj0 hr
          injection hr with hk hr2
      refine ⟨hnd, ?_, ?_⟩
      · intro w1 w2 j0 r r2 h1w h2w
        have e1 : w1 ≠ w := by
          intro e; rw [e, Function.update_same] at h1w; cases h1w
        have e2 : w2 ≠ w := by
          intro e; rw [e, Function.update_same] at h2w; cases h2w
        rw [Function.update_noteq e1] at h1w
        rw [Function.update_noteq e2] at h2w
        exact hdist w1 w2 j0 r r2 h1w h2w
      · intro j0
        by_cases ej : j0 = j
        · subst ej
          refine .inr (.inr ⟨hnin, ?_, ?_⟩)
          · intro w1 r h1w
            have e1 : w1 ≠ w := by
              intro e; rw [e, Function.update_same] at h1w; cases h1w
            rw [Function.update_noteq e1] at h1w
            have hww : w1 = w := hdist w1 w j0 _ _ h1w hw
            exact e1 hww
          · rw [Function.update_same, hkf]
        · rcases hcase j0 with ⟨hin, hst0, hnw0⟩ | ⟨hnin0, w1, hAB0⟩ | ⟨hnin0, hnw0, hst0⟩
          · refine .inl ⟨hin, by rw [Function.update_noteq ej]; exact hst0, ?_⟩
            intro w1 r h1w
            by_cases e1 : w1 = w
            · rw [e1, Function.update_same] at h1w; cases h1w
            · rw [Function.update_noteq e1] at h1w
              exact hnw0 w1 r h1w
          · have hw1ne : w1 ≠ w := by
              intro e
              rcases hAB0 with ⟨hw1, -⟩ | ⟨hw1, -, -⟩ <;> rw [e, hw] at hw1 <;>
                · injection hw1 with hw1p
                  injection hw1p with hj1 hr1
                  exact ej hj1.symm
            refine .inr (.inl ⟨hnin0, w1, ?_⟩)
            rcases hAB0 with ⟨hw1, hg1⟩ | ⟨hw1, htr1, hc1⟩
            · exact .inl ⟨by rw [Function.update_noteq hw1ne]; exact hw1,
                by rw [Function.update_noteq ej]; exact hg1⟩
            · exact .inr ⟨by rw [Function.update_noteq hw1ne]; exact hw1, htr1,
                by rw [Function.update_noteq ej]; exact hc1⟩
          · refine .inr (.inr ⟨hnin0, ?_, by rw [Function.update_noteq ej]; exact hst0⟩)
            intro w1 r h1w
            by_cases e1 : w1 = w
            · rw [e1, Function.update_same] at h1w; cases h1w
            · rw [Function.update_noteq e1] at h1w
              exact hnw0 w1 r h1w
    · exact absurd hw (hnwj w _)

lemma reaches_schedInv {n : Nat} {env : Fin n → JobEnv} {s : SchedState n}
    (h : Reaches env s) : SchedInv env s := by
  induction h with
  | refl => exact schedInv_init n env
  | tail hab hbc ih => exact schedInv_step ih hbc

lemma stuck_status_final {n : Nat} {env : Fin n → JobEnv} {s : SchedState n}
    (hinv : SchedInv env s) (hstuck : Stuck s) :
    ∀ j, s.status j = jobFinal (env j) := by
  intro j
  obtain ⟨hq, hwn⟩ := hstuck
  rcases hinv.2.2 j with ⟨hj, -, -⟩ | ⟨-, w0, hAB⟩ | ⟨-, -, hs0⟩
  · rw [hq] at hj; cases hj
  · rcases hAB with ⟨hw0, -⟩ | ⟨hw0, -, -⟩ <;> rw [hwn w0] at hw0 <;> cases hw0
  · exact hs0

lemma inflight_card_le {n : Nat} {env : Fin n → JobEnv} {s : SchedState n}
    (hinv : SchedInv env s) : (inflight s).card ≤ CONCURRENCY_LIMIT := by
  classical
  obtain ⟨-, hdist, hcase⟩ := hinv
  have himg : ∀ j ∈ inflight s, ∃ w r, s.workers w = some (j, r) := by
    intro j hj
    rw [inflight, Finset.mem_filter] at hj
    rcases hcase j with ⟨-, hs0, -⟩ | ⟨-, w0, hAB⟩ | ⟨-, -, hs0⟩
    · rw [hs0] at hj
      rcases hj.2 with h | h <;> cases h
    · rcases hAB with ⟨hw0, -⟩ | ⟨hw0, -, -⟩ <;> exact ⟨w0, _, hw0⟩
    · rw [hs0] at hj
      rcases jobFinal_shape (env j) with hf | ⟨m, hf⟩ <;> rw [hf] at hj <;>
        rcases hj.2 with h | h <;> cases h
  have hcard := Finset.card_le_card_of_injOn
    (f := fun j => if hj : ∃ w r, s.workers w = some (j, r)
      then hj.choose else ⟨0, by decide⟩)
    (s := inflight s) (t := Finset.univ) (fun a _ => Finset.mem_univ _) ?_
  · simpa using hcard
  · intro j1 h1 j2 h2 hf
    have hj1 := himg j1 (by simpa using h1)
    have hj2 := himg j2 (by simpa using h2)
    dsimp only at hf
    rw [dif_pos hj1, dif_pos hj2] at hf
    obtain ⟨r1, hr1⟩ := hj1.choose_spec
    obtain ⟨r2, hr2⟩ := hj2.choose_spec
    rw [hf] at hr1
    rw [hr2] at hr1
    injection hr1 with hp
    injection hp with hj hr
    exact hj.symm

lemma sched_progress {n : Nat} {env : Fin n → JobEnv} {s : SchedState n}
    (hinv : SchedInv env s) (h : ¬ Stuck s) : ∃ s2, Step env s s2 := by
  by_cases hb : ∃ w j r, s.workers w = some (j, r)
  · obtain ⟨w, j, r, hw⟩ := hb
    rcases hinv.2.2 j with ⟨-, -, hnw⟩ | ⟨-, w0, hAB⟩ | ⟨-, hnw, -⟩
    · exact absurd hw (hnw w r)
    · rcases hAB with ⟨hw0, -⟩ | ⟨hw0, -, -⟩
      · rcases traceRest_cases (env j) with h1 | h1
        · exact ⟨_, Step.finish s w0 j (jobFinal (env j))
            (by rw [h1] at hw0; exact hw0)⟩
        · exact ⟨_, Step.work s w0 j (JobStatus.committing) (jobFinal (env j)) []
            (by rw [h1] at hw0; exact hw0)⟩
      · exact ⟨_, Step.finish s w0 j (jobFinal (env j)) hw0⟩
    · exact absurd hw (hnw w r)
  · push_neg at hb
    have hwn : ∀ w, s.workers w = none := by
      intro w
      cases hww : s.workers w with
      | none => rfl
      | some v =>
        obtain ⟨j, r⟩ := v
        exact absurd hww (hb w j r)
    have hqne : s.queue ≠ [] := by
      intro hq
      exact h ⟨hq, hwn⟩
    cases hq : s.queue with
    | nil => exact absurd hq hqne
    | cons j rest =>
      exact ⟨_, Step.dequeue s ⟨0, by decide⟩ j rest (hwn _) hq⟩

lemma sum_workerLoad_update {n : Nat}
    (f : Fin CONCURRENCY_LIMIT → Option (Fin n × List JobStatus))
    (w : Fin CONCURRENCY_LIMIT) (v : Option (Fin n × List JobStatus)) :
    (∑ x : Fin CONCURRENCY_LIMIT, workerLoad (Function.update f w v x)) +
        workerLoad (f w)
      = (∑ x : Fin CONCURRENCY_LIMIT, workerLoad (f x)) + workerLoad v := by
  classical
  rw [show (fun x => workerLoad (Function.update f w v x))
        = Function.update (fun x => workerLoad (f x)) w (workerLoad v) from ?_]
  · rw [Finset.sum_update_of_mem (Finset.mem_univ w)]
    rw [Finset.sdiff_singleton_eq_erase]
    rw [← Finset.add_sum_erase Finset.univ (fun x => workerLoad (f x))
      (Finset.mem_univ w)]
    omega
  · funext x
    by_cases e : x = w
    · subst e; rw [Function.update_same, Function.update_same]
    · rw [Function.update_noteq e, Function.update_noteq e]

lemma measure_decreases {n : Nat} {env : Fin n → JobEnv} {s s2 : SchedState n}
    (hst : Step env s s2) : measureS env s2 < measureS env s := by
  cases hst with
  | dequeue w j rest hw hq =>
    unfold measureS
    dsimp only
    rw [hq, List.map_cons, List.sum_cons]
    have h1 := sum_workerLoad_update s.workers w (some (j, traceRest (env j)))
    rw [hw] at h1
    simp only [workerLoad] at h1 ⊢
    omega
  | work w j k k2 ks hw =>
    unfold measureS
    dsimp only
    have h1 := sum_workerLoad_update s.workers w (some (j, k2 :: ks))
    rw [hw] at h1
    simp only [workerLoad, List.length_cons] at h1 ⊢
    omega
  | finish w j k hw =>
    unfold measureS
    dsimp only
    have h1 := sum_workerLoad_update s.workers w none
    rw [hw] at h1
    simp only [workerLoad, List.length_cons, List.length_nil] at h1 ⊢
    omega

/-- C1: in every reachable state of the expansion run, once the scheduler
has terminated every job's status is one of success, skipped, failed and
the run-complete flag holds; when the run-complete flag holds no job is in
a processing state (queued, generating or committing); and a step of the
scheduler never changes the status of a job already in a terminal
status. -/
theorem job_terminal_statuses {n : Nat} (env : Fin n → JobEnv)
    (s : SchedState n) (h : Reaches env s) :
    (Stuck s → isComplete s = true ∧
      ∀ j, s.status j = .success ∨ s.status j = .skipped ∨
        ∃ m, s.status j = .failed m) ∧
    (isComplete s = true →
      ∀ j, s.status j ≠ .queued ∧ s.status j ≠ .generating ∧
        s.status j ≠ .committing) ∧
    (∀ s2 j, Step env s s2 → (s.status j).isTerminal = true →
      s2.status j = s.status j) := by
  have hinv := reaches_schedInv h
  refine ⟨?_, ?_, ?_⟩
  · intro hstuck
    have hfin := stuck_status_final hinv hstuck
    constructor
    · have hany : ((List.finRange n).any fun j =>
          s.status j == .queued || s.status j == .generating ||
            s.status j == .committing) = false := by
        rw [List.any_eq_false]
        intro j hj
        rw [hfin j]
        rcases jobFinal_shape (env j) with hf | ⟨m, hf⟩ <;> rw [hf] <;> simp
      unfold isComplete
      rw [hany]
      rfl
    · intro j
      rw [hfin j]
      rcases jobFinal_shape (env j) with hf | ⟨m, hf⟩ <;> rw [hf]
      · exact .inl rfl
      · exact .inr (.inr ⟨m, rfl⟩)
  · intro hc j
    have hc2 : ((List.finRange n).any fun j =>
        s.status j == .queued || s.status j == .generating ||
          s.status j == .committing) = false := by
      cases hany : ((List.finRange n).any fun j =>
          s.status j == .queued || s.status j == .generating ||
            s.status j == .committing) with
      | false => rfl
      | true =>
        unfold isComplete at hc
        rw [hany] at hc
        cases hc
    rw [List.any_eq_false] at hc2
    have hj := hc2 j (List.mem_finRange j)
    simp only [Bool.or_eq_true, beq_iff_eq, not_or] at hj
    exact ⟨hj.1.1, hj.1.2, hj.2⟩
  · intro s2 j hst hterm
    cases hst with
    | dequeue w j0 rest hw hq =>
      have hq0 : s.status j0 = .queued := by
        rcases hinv.2.2 j0 with ⟨-, h1, -⟩ | ⟨hnq, -⟩ | ⟨hnq, -, -⟩
        · exact h1
        · exact absurd (by rw [hq]; exact List.mem_cons_self _ _) hnq
        · exact absurd (by rw [hq]; exact List.mem_cons_self _ _) hnq
      have hne : j ≠ j0 := by
        intro e
        rw [e, hq0] at hterm
        exact absurd hterm (by decide)
      dsimp only
      rw [Function.update_noteq hne]
    | work w j0 k k2 ks hw =>
      have hst0 : s.status j0 = .generating ∨ s.status j0 = .committing := by
        rcases hinv.2.2 j0 with ⟨-, -, hnw⟩ | ⟨-, w0, hAB⟩ | ⟨-, hnw, -⟩
        · exact absurd hw (hnw w _)
        · rcases hAB with ⟨-, hg⟩ | ⟨-, -, hc⟩
          · exact .inl hg
          · exact .inr hc
        · exact absurd hw (hnw w _)
      have hne : j ≠ j0 := by
        intro e
        rcases hst0 with h0 | h0 <;> rw [e, h0] at hterm <;>
          exact absurd hterm (by decide)
      dsimp only
      rw [Function.update_noteq hne]
    | finish w j0 k hw =>
      have hst0 : s.status j0 = .generating ∨ s.status j0 = .committing := by
        rcases hinv.2.2 j0 with ⟨-, -, hnw⟩ | ⟨-, w0, hAB⟩ | ⟨-, hnw, -⟩
        · exact absurd hw (hnw w _)
        · rcases hAB with ⟨-, hg⟩ | ⟨-, -, hc⟩
          · exact .inl hg
          · exact .inr hc
        · exact absurd hw (hnw w _)
      have hne : j ≠ j0 := by
        intro e
        rcases hst0 with h0 | h0 <;> rw [e, h0] at hterm <;>
          exact absurd hterm (by decide)
      dsimp only
      rw [Function.update_noteq hne]

/-- C2: in every reachable state of the expansion run at most
CONCURRENCY_LIMIT jobs are in a non-terminal, non-queued state; when the
scheduler has terminated every job is terminal; from any non-terminated
reachable state a step is possible; and every step strictly decreases the
remaining-work measure, so every run drains the whole job list to
completion. -/
theorem scheduler_concurrency_bound {n : Nat} (env : Fin n → JobEnv)
    (s : SchedState n) (h : Reaches env s) :
    (inflight s).card ≤ CONCURRENCY_LIMIT ∧
    (Stuck s → ∀ j, (s.status j).isTerminal = true) ∧
    (¬ Stuck s → ∃ s2, Step env s s2) ∧
    (∀ s2, Step env s s2 → measureS env s2 < measureS env s) := by
  have hinv := reaches_schedInv h
  refine ⟨inflight_card_le hinv, ?_, sched_progress hinv,
    fun s2 hst => measure_decreases hst⟩
  intro hstuck j
  rw [stuck_status_final hinv hstuck j]
  exact jobFinal_terminal (env j)

/-- C8: in any two terminated runs whose environments agree on job j, job
j ends with the same status, namely the terminal status determined by its
own environment alone; in particular another job's pipeline failure never
changes job j's processing or final status, and the scheduler still
settles every job. -/
theorem job_failure_isolation {n : Nat} (env env2 : Fin n → JobEnv)
    (j : Fin n) (s s2 : SchedState n) (h1 : Reaches env s) (hs1 : Stuck s)
    (h2 : Reaches env2 s2) (hs2 : Stuck s2) (hj : env j = env2 j) :
    s.status j = jobFinal (env j) ∧ s2.status j = s.status j := by
  have a1 := stuck_status_final (reaches_schedInv h1) hs1 j
  have a2 := stuck_status_final (reaches_schedInv h2) hs2 j
  refine ⟨a1, ?_⟩
  rw [a1, a2, hj]

lemma stepA1 : Step envA (initState 2) sA1 :=
  step_congr (Step.dequeue (initState 2) ⟨0, by decide⟩ 0 [1] (by decide) (by decide))
    (SchedState.ext2 (by decide) (by decide) (by decide))

lemma stepA2 : Step envA sA1 sA2 :=
  step_congr (Step.dequeue sA1 ⟨1, by decide⟩ 1 [] (by decide) (by decide))
    (SchedState.ext2 (by decide) (by decide) (by decide))

lemma stepA3 : Step envA sA2 sA3 :=
  step_congr (Step.work sA2 ⟨0, by decide⟩ 0 .committing .success [] (by decide))
    (SchedState.ext2 (by decide) (by decide) (by decide))

lemma stepA4 : Step envA sA3 sA4 :=
  step_congr (Step.finish sA3 ⟨0, by decide⟩ 0 .success (by decide))
    (SchedState.ext2 (by decide) (by decide) (by decide))

lemma stepA5 : Step envA sA4 sA5 :=
  step_congr (Step.work sA4 ⟨1, by decide⟩ 1 .committing .success [] (by decide))
    (SchedState.ext2 (by decide) (by decide) (by decide))

lemma stepA6 : Step envA sA5 sA6 :=
  step_congr (Step.finish sA5 ⟨1, by decide⟩ 1 .success (by decide))
    (SchedState.ext2 (by decide) (by decide) (by decide))

lemma reachA : Reaches envA sA6 :=
  Relation.ReflTransGen.tail (Relation.ReflTransGen.tail
    (Relation.ReflTransGen.tail (Relation.ReflTransGen.tail
      (Relation.ReflTransGen.tail (Relation.ReflTransGen.tail
        Relation.ReflTransGen.refl stepA1) stepA2) stepA3) stepA4) stepA5)
    stepA6

lemma stepB1 : Step envB (initState 2) sA1 :=
  step_congr (Step.dequeue (initState 2) ⟨0, by decide⟩ 0 [1] (by decide) (by decide))
    (SchedState.ext2 (by decide) (by decide) (by decide))

lemma stepB2 : Step envB sA1 sB2 :=
  step_congr (Step.dequeue sA1 ⟨1, by decide⟩ 1 [] (by decide) (by decide))
    (SchedState.ext2 (by decide) (by decide) (by decide))

lemma stepB3 : Step envB sB2 sB3 :=
  step_congr (Step.work sB2 ⟨0, by decide⟩ 0 .committing .success [] (by decide))
    (SchedState.ext2 (by decide) (by decide) (by decide))

lemma stepB4 : Step envB sB3 sB4 :=
  step_congr (Step.finish sB3 ⟨0, by decide⟩ 0 .success (by decide))
    (SchedState.ext2 (by decide) (by decide) (by decide))

lemma stepB5 : Step envB sB4 sB5 :=
  step_congr (Step.finish sB4 ⟨1, by decide⟩ 1 (.failed "Not Found") (by decide))
    (SchedState.ext2 (by decide) (by decide) (by decide))

lemma reachB : Reaches envB sB5 :=
  Relation.ReflTransGen.tail (Relation.ReflTransGen.tail
    (Relation.ReflTransGen.tail (Relation.ReflTransGen.tail
      (Relation.ReflTransGen.tail Relation.ReflTransGen.refl stepB1) stepB2)
        stepB3) stepB4)
    stepB5

/-- C1 witness: at the terminated state of the two-job run under envA the
run-complete flag holds and job 0 ended in success. -/
theorem job_terminal_statuses_witness :
    isComplete sA6 = true ∧ sA6.status 0 = JobStatus.success :=
  ⟨((job_terminal_statuses envA sA6 reachA).1 ⟨by decide, by decide⟩).1,
    by decide⟩

/-- C2 witness: at the terminated state of the two-job run under envA the
in-flight count is within the concurrency limit and job 1 is terminal. -/
theorem scheduler_concurrency_bound_witness :
    (inflight sA6).card ≤ CONCURRENCY_LIMIT ∧ (sA6.status 1).isTerminal = true :=
  ⟨(scheduler_concurrency_bound envA sA6 reachA).1,
    (scheduler_concurrency_bound envA sA6 reachA).2.1 ⟨by decide, by decide⟩ 1⟩

/-- C8 witness: job 0 ends in the same status in the all-success run and
in the run where job 1 fails. -/
theorem job_failure_isolation_witness :
    sA6.status 0 = jobFinal (envA 0) ∧ sB5.status 0 = sA6.status 0 :=
  job_failure_isolation envA envB 0 sA6 sB5 reachA ⟨by decide, by decide⟩
    reachB ⟨by decide, by decide⟩ (by decide)
